import Mathlib

/-! # MapacheBot: profanity filter and configuration loader

A shallow embedding of `internal/profanity/profanity.go` and
`internal/config/config.go`.

Modelling conventions.

* A Go `string` is a byte string. Two views of it are used.
  - Text: a Lean `String`, a finite sequence of Unicode code points, stands for a
    Go string that is valid UTF-8. Configuration values and dictionary words are
    decoded by `encoding/json`, which only yields valid UTF-8. On text,
    `strings.ToLower` applies `unicode.ToLower` to each code point and
    `strings.Contains` searches code points (namespace `strings`,
    `Filter.ContainsProfatiny`).
  - Bytes: a `List Byte` stands for an arbitrary Go string, valid UTF-8 or not.
    There `strings.ToLower` decodes rune by rune the way `range` does, turns every
    invalid byte into U+FFFD, and re-encodes; `strings.Contains` searches bytes
    (namespaces `utf8` and `gostring`, `Filter.ContainsProfatinyBytes`).
  `ContainsProfatinyBytes_utf8` proves that the two views agree on every text:
  the text view is the byte view restricted to valid UTF-8 messages.
* The case tables of Go's `unicode` package are not part of the repository.
  They are a parameter (`CaseTables`) of everything that lowercases.
* `os.ReadFile` and `json.Unmarshal` are parameters of the two loaders.
* A Go result `(*T, error)` is a pair `Option T × Option Error`; `none` is `nil`.
-/

namespace MapacheBot

/-- The per-code-point case mappings `unicode.ToLower` and `unicode.ToUpper` of
the Go standard library, which the repository uses and does not define. -/
structure CaseTables where
  ToLower : Char → Char
  ToUpper : Char → Char

/-- A Go `error` value. -/
structure Error where
  msg : String
  deriving DecidableEq, Repr

/-! ## The part of package `strings` the filter calls -/

namespace strings

/-- Go `strings.ToLower` restricted to valid UTF-8 text: every code point is
replaced by its `unicode.ToLower` image. The function on arbitrary byte strings is
`gostring.ToLower`; `ToLower_bytes` shows that the two agree on text. -/
def ToLower (u : CaseTables) (s : String) : String :=
  String.mk (s.data.map u.ToLower)

/-- Go `strings.ToUpper` restricted to valid UTF-8 text. -/
def ToUpper (u : CaseTables) (s : String) : String :=
  String.mk (s.data.map u.ToUpper)

/-- Go `strings.HasPrefix` on code-point lists. -/
def hasPrefixAt : List Char → List Char → Bool
  | _, [] => true
  | [], _ :: _ => false
  | c :: s, d :: p => if c = d then hasPrefixAt s p else false

/-- The search loop behind `strings.Index(s, substr) >= 0`: try every start
position from the left. -/
def containsFrom : List Char → List Char → Bool
  | [], substr => hasPrefixAt [] substr
  | c :: s, substr => if hasPrefixAt (c :: s) substr then true else containsFrom s substr

/-- Go `strings.Contains(s, substr)` on valid UTF-8 text. The function on arbitrary
byte strings is `gostring.Contains`; `Contains_bytes` shows that the two agree on
text. -/
def Contains (s substr : String) : Bool :=
  containsFrom s.data substr.data

end strings

/-! ## Package `profanity` -/

namespace profanity

/-- `type Severity string`. -/
abbrev Severity := String

/-- `Mild Severity = "mild"`. -/
def Mild : Severity := "mild"

/-- `Moderate Severity = "moderate"`. -/
def Moderate : Severity := "moderate"

/-- `Severe Severity = "severe"`. -/
def Severe : Severity := "severe"

/-- Words of one language, by severity tier. -/
structure LanguageProfanity where
  Mild : List String
  Moderate : List String
  Severe : List String
  deriving DecidableEq, Repr

/-- The three languages of the database. -/
structure ProfranityDatabase where
  Spanish : LanguageProfanity
  Catalan : LanguageProfanity
  English : LanguageProfanity
  deriving DecidableEq, Repr

/-- The filter: a database and a minimum severity. -/
structure Filter where
  db : ProfranityDatabase
  minSeverity : Severity
  deriving DecidableEq, Repr

/-- Zero value of `LanguageProfanity` (three nil slices). -/
def LanguageProfanity.zero : LanguageProfanity := ⟨[], [], []⟩

/-- Zero value of `ProfranityDatabase`, the state of `var db ProfranityDatabase`. -/
def ProfranityDatabase.zero : ProfranityDatabase :=
  ⟨LanguageProfanity.zero, LanguageProfanity.zero, LanguageProfanity.zero⟩

/-- `NewFilter`: read the file, decode it into a fresh database, build the filter.
`readFile` stands for `os.ReadFile`; `unmarshal data db` stands for
`json.Unmarshal(data, &db)` and returns the database as the call leaves it
together with the error, if any. -/
def NewFilter (readFile : String → Except Error (List UInt8))
    (unmarshal : List UInt8 → ProfranityDatabase → ProfranityDatabase × Option Error)
    (databasePath : String) (minSeverity : Severity) : Option Filter × Option Error :=
  match readFile databasePath with
  | .error err => (none, some err)
  | .ok data =>
    match unmarshal data ProfranityDatabase.zero with
    | (_, some err) => (none, some err)
    | (db, none) => (some { db := db, minSeverity := minSeverity }, none)

/-- `Filter.getWordsForLanguage`: the words of `lang` in the tiers selected by the
filter's minimum severity; the `switch` has no default case. -/
def Filter.getWordsForLanguage (f : Filter) (lang : LanguageProfanity) : List String :=
  if f.minSeverity = Mild then
    (([] ++ lang.Mild) ++ lang.Moderate) ++ lang.Severe
  else if f.minSeverity = Moderate then
    ([] ++ lang.Moderate) ++ lang.Severe
  else if f.minSeverity = Severe then
    [] ++ lang.Severe
  else
    []

/-- `containsAnyWord`: the loop over `words` with its early return. -/
def containsAnyWord (message : String) : List String → Bool
  | [] => false
  | word :: words =>
    if strings.Contains message word then true else containsAnyWord message words

/-- `Filter.ContainsProfatiny` on a message that is valid UTF-8 text: lowercase the
message, then check Spanish, Catalan and English in that order. The same function
on an arbitrary byte string is `Filter.ContainsProfatinyBytes`. -/
def Filter.ContainsProfatiny (u : CaseTables) (f : Filter) (message : String) : Bool :=
  let lowerMessage := strings.ToLower u message
  if containsAnyWord lowerMessage (f.getWordsForLanguage f.db.Spanish) then true
  else if containsAnyWord lowerMessage (f.getWordsForLanguage f.db.Catalan) then true
  else if containsAnyWord lowerMessage (f.getWordsForLanguage f.db.English) then true
  else false

end profanity

/-! ## Package `config` -/

namespace config

/-- The application configuration. -/
structure Config where
  YouTubeAPIKey : String
  LiveChatId : String
  ProfanityDatabase : String
  MinSeverity : String
  PollingInterval : Int
  deriving DecidableEq, Repr

/-- Zero value of `Config`, the state of `var config Config`. -/
def Config.zero : Config := ⟨"", "", "", "", 0⟩

/-- `LoadConfig`: read the file, decode it into a fresh `Config`, fill the defaults.
`readFile` stands for `os.ReadFile`, `unmarshal data c` for
`json.Unmarshal(data, &c)`. -/
def LoadConfig (readFile : String → Except Error (List UInt8))
    (unmarshal : List UInt8 → Config → Config × Option Error)
    (path : String) : Option Config × Option Error :=
  match readFile path with
  | .error err => (none, some err)
  | .ok data =>
    match unmarshal data Config.zero with
    | (_, some err) => (none, some err)
    | (config, none) =>
      let config :=
        if config.PollingInterval = 0 then { config with PollingInterval := 5 } else config
      let config :=
        if config.MinSeverity = "" then { config with MinSeverity := "mild" } else config
      let config :=
        if config.ProfanityDatabase = "" then
          { config with ProfanityDatabase := "data/profanity.json" }
        else config
      (some config, none)

end config

/-! ## Vocabulary of the specification -/

namespace Spec

open profanity

/-- The severity tiers of the specification, ordered `mild < moderate < severe`. -/
inductive Tier where
  | mild
  | moderate
  | severe
  deriving DecidableEq, Repr

/-- Position of a tier in the order `mild < moderate < severe`. -/
def Tier.rank : Tier → Nat
  | .mild => 0
  | .moderate => 1
  | .severe => 2

/-- The configuration string that names a tier. -/
def Tier.name : Tier → Severity
  | .mild => "mild"
  | .moderate => "moderate"
  | .severe => "severe"

/-- The word list a language holds for a tier. -/
def Tier.words (t : Tier) (lang : LanguageProfanity) : List String :=
  match t with
  | .mild => lang.Mild
  | .moderate => lang.Moderate
  | .severe => lang.Severe

/-- Tier `t` is at or above the minimum `s`. -/
def Tier.atOrAbove (t s : Tier) : Prop := s.rank ≤ t.rank

instance (t s : Tier) : Decidable (t.atOrAbove s) := by
  unfold Tier.atOrAbove; infer_instance

/-- The languages of a database: Spanish, Catalan, English. -/
def languages (db : ProfranityDatabase) : List LanguageProfanity :=
  [db.Spanish, db.Catalan, db.English]

/-- The word `w` is a literal substring of `s`: `s` is `w` with some text before
and some text after. -/
def IsSubstring (w s : String) : Prop := ∃ a b : String, s = a ++ w ++ b

/-- The word `w` is listed for some language of `db` in a tier at or above `s`. -/
def Listed (db : ProfranityDatabase) (s : Tier) (w : String) : Prop :=
  ∃ lang ∈ languages db, ∃ t : Tier, t.atOrAbove s ∧ w ∈ t.words lang

end Spec

/-! ## Go strings as byte strings -/

/-- A byte of a Go string. -/
abbrev Byte := Fin 256

/-- The byte with value `n % 256`. -/
def byte (n : Nat) : Byte := ⟨n % 256, Nat.mod_lt n (by decide)⟩

/-! ### The part of package `unicode/utf8` that `strings.ToLower` relies on -/

namespace utf8

/-- `utf8.RuneError`, U+FFFD, the rune that stands for an invalid byte. -/
def RuneError : Char := Char.ofNat 0xFFFD

/-- A continuation byte: `locb <= b && b <= hicb`, that is 0x80..0xBF. -/
def isCont (b : Byte) : Bool := decide (0x80 ≤ b.val ∧ b.val ≤ 0xBF)

/-- Lowest second byte accepted after the first byte `b0` (`acceptRanges[..].lo`):
0xA0 after 0xE0, 0x90 after 0xF0, 0x80 otherwise. -/
def acceptLo (b0 : Byte) : Nat :=
  if b0.val = 0xE0 then 0xA0 else if b0.val = 0xF0 then 0x90 else 0x80

/-- Highest second byte accepted after the first byte `b0` (`acceptRanges[..].hi`):
0x9F after 0xED, 0x8F after 0xF4, 0xBF otherwise. -/
def acceptHi (b0 : Byte) : Nat :=
  if b0.val = 0xED then 0x9F else if b0.val = 0xF4 then 0x8F else 0xBF

/-- Go `utf8.EncodeRune` / `utf8.AppendRune`: the UTF-8 bytes of a rune. A `Char` is
never a surrogate or above U+10FFFF, so the branch that writes `RuneError` for
such values is not needed. Shifts are divisions, the mask `0x3F` is `% 64`. -/
def EncodeRune (r : Char) : List Byte :=
  if r.toNat ≤ 0x7F then [byte r.toNat]
  else if r.toNat ≤ 0x7FF then [byte (0xC0 + r.toNat / 64), byte (0x80 + r.toNat % 64)]
  else if r.toNat ≤ 0xFFFF then
    [byte (0xE0 + r.toNat / 4096), byte (0x80 + r.toNat / 64 % 64), byte (0x80 + r.toNat % 64)]
  else
    [byte (0xF0 + r.toNat / 262144), byte (0x80 + r.toNat / 4096 % 64),
      byte (0x80 + r.toNat / 64 % 64), byte (0x80 + r.toNat % 64)]

/-- Go `utf8.DecodeRuneInString`: the first rune of `s` and its width in bytes. An
empty input gives `(RuneError, 0)`; a first byte that starts no valid encoding, a
sequence cut short, a second byte outside the accepted range or a later byte that
is not a continuation byte gives `(RuneError, 1)`. The masks `0x1F`, `0x0F`, `0x07`
and `0x3F` are `% 32`, `% 16`, `% 8` and `% 64`. -/
def DecodeRune : List Byte → Char × Nat
  | [] => (RuneError, 0)
  | b0 :: rest =>
    if b0.val < 0x80 then (Char.ofNat b0.val, 1)
    else if 0xC2 ≤ b0.val ∧ b0.val ≤ 0xDF then
      match rest with
      | b1 :: _ =>
        if isCont b1 then (Char.ofNat (b0.val % 32 * 64 + b1.val % 64), 2)
        else (RuneError, 1)
      | [] => (RuneError, 1)
    else if 0xE0 ≤ b0.val ∧ b0.val ≤ 0xEF then
      match rest with
      | b1 :: b2 :: _ =>
        if acceptLo b0 ≤ b1.val ∧ b1.val ≤ acceptHi b0 ∧ isCont b2 then
          (Char.ofNat (b0.val % 16 * 4096 + b1.val % 64 * 64 + b2.val % 64), 3)
        else (RuneError, 1)
      | _ => (RuneError, 1)
    else if 0xF0 ≤ b0.val ∧ b0.val ≤ 0xF4 then
      match rest with
      | b1 :: b2 :: b3 :: _ =>
        if acceptLo b0 ≤ b1.val ∧ b1.val ≤ acceptHi b0 ∧ isCont b2 ∧ isCont b3 then
          (Char.ofNat (b0.val % 8 * 262144 + b1.val % 64 * 4096 + b2.val % 64 * 64
            + b3.val % 64), 4)
        else (RuneError, 1)
      | _ => (RuneError, 1)
    else (RuneError, 1)

/-- The UTF-8 bytes of a sequence of code points. -/
def encode : List Char → List Byte
  | [] => []
  | c :: cs => EncodeRune c ++ encode cs

/-- The Go string (byte string) that holds the text `s`. -/
def bytes (s : String) : List Byte := encode s.data

end utf8

/-! ### Package `strings` on byte strings -/

namespace gostring

/-- The loop of Go `strings.Map`: decode the next rune the way `range s` does (an
invalid byte is `RuneError` with width 1), write the UTF-8 bytes of its image, go
on after it. `fuel` bounds the number of runes; the length of `s` is enough
(`mapLoop_fuel`). -/
def mapLoop (mapping : Char → Char) : Nat → List Byte → List Byte
  | 0, _ => []
  | _ + 1, [] => []
  | fuel + 1, b :: s =>
    utf8.EncodeRune (mapping (utf8.DecodeRune (b :: s)).1) ++
      mapLoop mapping fuel ((b :: s).drop (utf8.DecodeRune (b :: s)).2)

/-- Go `strings.Map(mapping, s)` for a mapping that drops no rune. -/
def Map (mapping : Char → Char) (s : List Byte) : List Byte :=
  mapLoop mapping s.length s

/-- Go `strings.ToLower(s)` on an arbitrary byte string: `Map(unicode.ToLower, s)`.
The library's shortcut for an all-ASCII `s` returns the same bytes, since
`unicode.ToLower` moves `A`..`Z` to `a`..`z` and fixes the rest of ASCII. -/
def ToLower (u : CaseTables) (s : List Byte) : List Byte := Map u.ToLower s

/-- Go `strings.HasPrefix` on byte strings. -/
def hasPrefixAt : List Byte → List Byte → Bool
  | _, [] => true
  | [], _ :: _ => false
  | c :: s, d :: p => if c = d then hasPrefixAt s p else false

/-- The search loop behind `strings.Index(s, substr) >= 0` on byte strings. -/
def containsFrom : List Byte → List Byte → Bool
  | [], substr => hasPrefixAt [] substr
  | c :: s, substr => if hasPrefixAt (c :: s) substr then true else containsFrom s substr

/-- Go `strings.Contains(s, substr)` on byte strings. -/
def Contains (s substr : List Byte) : Bool := containsFrom s substr

end gostring

namespace profanity

/-- `containsAnyWord` with the message as a byte string; `words` are dictionary
words, which `json.Unmarshal` delivers as valid UTF-8 text. -/
def containsAnyWordBytes (message : List Byte) : List String → Bool
  | [] => false
  | word :: words =>
    if gostring.Contains message (utf8.bytes word) then true
    else containsAnyWordBytes message words

/-- `Filter.ContainsProfatiny` with the message as an arbitrary byte string. -/
def Filter.ContainsProfatinyBytes (u : CaseTables) (f : Filter) (message : List Byte) :
    Bool :=
  let lowerMessage := gostring.ToLower u message
  if containsAnyWordBytes lowerMessage (f.getWordsForLanguage f.db.Spanish) then true
  else if containsAnyWordBytes lowerMessage (f.getWordsForLanguage f.db.Catalan) then true
  else if containsAnyWordBytes lowerMessage (f.getWordsForLanguage f.db.English) then true
  else false

end profanity

namespace Spec

/-- The byte string `s` is valid UTF-8: it holds some text. -/
def ValidUTF8 (s : List Byte) : Prop := ∃ t : String, s = utf8.bytes t

end Spec

/-! ## Concrete case tables and databases used at concrete inputs -/

/-- Go `unicode.ToLower` on U+0000..U+007F and on U+00E9, U+0131 and U+FFFD:
`A`..`Z` move to `a`..`z`, everything else among these code points is fixed
(U+00E9 and U+0131 are lowercase letters, U+FFFD is no letter). Other code points
are left alone here; the table is only evaluated at the ones listed. -/
def lowerExcerpt (c : Char) : Char :=
  if 65 ≤ c.toNat ∧ c.toNat ≤ 90 then Char.ofNat (c.toNat + 32) else c

/-- Go `unicode.ToUpper` on U+0000..U+007F and on U+0131: `a`..`z` move to
`A`..`Z`, and U+0131 (dotless i) moves to `I` (the table entry
`0x0131, 0x0131, d(-232, 0, -232)`). Code points outside that range are left
alone here; the table is only evaluated inside it. -/
def upperExcerpt (c : Char) : Char :=
  if 97 ≤ c.toNat ∧ c.toNat ≤ 122 then Char.ofNat (c.toNat - 32)
  else if c.toNat = 305 then Char.ofNat 73
  else c

/-- The two excerpts as case tables. -/
def goCase : CaseTables := ⟨lowerExcerpt, upperExcerpt⟩

/-- A database whose only word is `w`, in the mild tier of English. -/
def englishMild (w : String) : profanity.ProfranityDatabase :=
  { Spanish := profanity.LanguageProfanity.zero
    Catalan := profanity.LanguageProfanity.zero
    English := ⟨[w], [], []⟩ }

/-- A database whose only word is `w`, in the severe tier of Spanish. -/
def spanishSevere (w : String) : profanity.ProfranityDatabase :=
  { Spanish := ⟨[], [], [w]⟩
    Catalan := profanity.LanguageProfanity.zero
    English := profanity.LanguageProfanity.zero }

/-! ## Lemmas on the string primitives -/

theorem hasPrefixAt_iff (s p : List Char) :
    strings.hasPrefixAt s p = true ↔ ∃ t, s = p ++ t := by
  induction p generalizing s with
  | nil => simp [strings.hasPrefixAt]
  | cons d p ih =>
    cases s with
    | nil => simp [strings.hasPrefixAt]
    | cons c s =>
      by_cases hcd : c = d
      · subst hcd
        simp [strings.hasPrefixAt, ih]
      · simp [strings.hasPrefixAt, hcd]

theorem containsFrom_iff (s p : List Char) :
    strings.containsFrom s p = true ↔ ∃ a b, s = a ++ p ++ b := by
  induction s with
  | nil =>
    rw [strings.containsFrom, hasPrefixAt_iff]
    constructor
    · rintro ⟨t, ht⟩
      exact ⟨[], t, by simpa using ht⟩
    · rintro ⟨a, b, hab⟩
      have h := congrArg List.length hab
      simp only [List.length_nil, List.length_append] at h
      have ha : a = [] := List.length_eq_zero.mp (by omega)
      subst ha
      exact ⟨b, by simpa using hab⟩
  | cons c s ih =>
    rw [strings.containsFrom]
    by_cases hp : strings.hasPrefixAt (c :: s) p = true
    · simp only [hp, if_true, true_iff]
      obtain ⟨t, ht⟩ := (hasPrefixAt_iff _ _).mp hp
      exact ⟨[], t, by simpa using ht⟩
    · simp only [hp, Bool.false_eq_true, if_false, ih]
      constructor
      · rintro ⟨a, b, hab⟩
        exact ⟨c :: a, b, by simp [hab]⟩
      · rintro ⟨a, b, hab⟩
        cases a with
        | nil =>
          exact absurd ((hasPrefixAt_iff _ _).mpr ⟨b, by simpa using hab⟩) hp
        | cons x a =>
          simp only [List.cons_append, List.cons.injEq] at hab
          exact ⟨a, b, hab.2⟩

theorem Contains_iff (s w : String) :
    strings.Contains s w = true ↔ Spec.IsSubstring w s := by
  unfold strings.Contains Spec.IsSubstring
  rw [containsFrom_iff]
  constructor
  · rintro ⟨a, b, hab⟩
    exact ⟨String.mk a, String.mk b, String.ext (by simpa using hab)⟩
  · rintro ⟨a, b, hab⟩
    exact ⟨a.data, b.data, by simp [hab]⟩

theorem ToLower_append (u : CaseTables) (a b : String) :
    strings.ToLower u (a ++ b) = strings.ToLower u a ++ strings.ToLower u b := by
  apply String.ext
  simp [strings.ToLower]

theorem ToLower_empty (u : CaseTables) : strings.ToLower u "" = "" := by
  apply String.ext
  simp [strings.ToLower]

/-! ## Lemmas on the filter -/

theorem containsAnyWord_iff (m : String) (ws : List String) :
    profanity.containsAnyWord m ws = true ↔ ∃ w ∈ ws, strings.Contains m w = true := by
  induction ws with
  | nil => simp [profanity.containsAnyWord]
  | cons w ws ih =>
    rw [profanity.containsAnyWord]
    by_cases hw : strings.Contains m w = true
    · simp [hw]
    · simp [hw, ih]

theorem ContainsProfatiny_iff (u : CaseTables) (f : profanity.Filter) (m : String) :
    f.ContainsProfatiny u m = true ↔
      ∃ lang ∈ Spec.languages f.db, ∃ w ∈ f.getWordsForLanguage lang,
        strings.Contains (strings.ToLower u m) w = true := by
  simp only [profanity.Filter.ContainsProfatiny, Spec.languages, List.mem_cons,
    List.mem_singleton, List.not_mem_nil, or_false, exists_eq_or_imp, exists_eq_left,
    ← containsAnyWord_iff]
  by_cases h1 : profanity.containsAnyWord (strings.ToLower u m)
      (f.getWordsForLanguage f.db.Spanish) = true
  · simp [h1]
  · by_cases h2 : profanity.containsAnyWord (strings.ToLower u m)
        (f.getWordsForLanguage f.db.Catalan) = true
    · simp [h2]
    · simp [h1, h2]

theorem mem_getWordsForLanguage (db : profanity.ProfranityDatabase) (s : Spec.Tier)
    (lang : profanity.LanguageProfanity) (w : String) :
    w ∈ profanity.Filter.getWordsForLanguage ⟨db, s.name⟩ lang ↔
      ∃ t : Spec.Tier, t.atOrAbove s ∧ w ∈ t.words lang := by
  cases s
  · simp only [profanity.Filter.getWordsForLanguage, Spec.Tier.name, profanity.Mild,
      if_true, List.nil_append, List.mem_append]
    constructor
    · rintro ((h | h) | h)
      · exact ⟨.mild, by decide, h⟩
      · exact ⟨.moderate, by decide, h⟩
      · exact ⟨.severe, by decide, h⟩
    · rintro ⟨t, _, h⟩
      cases t
      · exact Or.inl (Or.inl h)
      · exact Or.inl (Or.inr h)
      · exact Or.inr h
  · have h1 : ¬ (("moderate" : String) = profanity.Mild) := by decide
    simp only [profanity.Filter.getWordsForLanguage, Spec.Tier.name, h1, if_false,
      profanity.Moderate, if_true, List.nil_append, List.mem_append]
    constructor
    · rintro (h | h)
      · exact ⟨.moderate, by decide, h⟩
      · exact ⟨.severe, by decide, h⟩
    · rintro ⟨t, ht, h⟩
      cases t
      · exact absurd ht (by decide)
      · exact Or.inl h
      · exact Or.inr h
  · have h1 : ¬ (("severe" : String) = profanity.Mild) := by decide
    have h2 : ¬ (("severe" : String) = profanity.Moderate) := by decide
    simp only [profanity.Filter.getWordsForLanguage, Spec.Tier.name, h1, h2, if_false,
      profanity.Severe, if_true, List.nil_append]
    constructor
    · intro h
      exact ⟨.severe, by decide, h⟩
    · rintro ⟨t, ht, h⟩
      cases t
      · exact absurd ht (by decide)
      · exact absurd ht (by decide)
      · exact h

theorem getWordsForLanguage_unrecognized (db : profanity.ProfranityDatabase)
    (sev : profanity.Severity) (h1 : sev ≠ "mild") (h2 : sev ≠ "moderate")
    (h3 : sev ≠ "severe") (lang : profanity.LanguageProfanity) :
    profanity.Filter.getWordsForLanguage ⟨db, sev⟩ lang = [] := by
  simp [profanity.Filter.getWordsForLanguage, profanity.Mild, profanity.Moderate,
    profanity.Severe, h1, h2, h3]

theorem ContainsProfatiny_of_listed_substring (u : CaseTables)
    (db : profanity.ProfranityDatabase) (s : Spec.Tier) (m w : String)
    (hw : Spec.Listed db s w) (hsub : Spec.IsSubstring w (strings.ToLower u m)) :
    profanity.Filter.ContainsProfatiny u ⟨db, s.name⟩ m = true := by
  obtain ⟨lang, hlang, t, ht, hmem⟩ := hw
  rw [ContainsProfatiny_iff]
  exact ⟨lang, hlang, w, (mem_getWordsForLanguage db s lang w).mpr ⟨t, ht, hmem⟩,
    (Contains_iff _ _).mpr hsub⟩

theorem listed_substring_of_ContainsProfatiny (u : CaseTables)
    (db : profanity.ProfranityDatabase) (s : Spec.Tier) (m : String)
    (h : profanity.Filter.ContainsProfatiny u ⟨db, s.name⟩ m = true) :
    ∃ w, Spec.Listed db s w ∧ Spec.IsSubstring w (strings.ToLower u m) := by
  rw [ContainsProfatiny_iff] at h
  obtain ⟨lang, hlang, w, hmem, hc⟩ := h
  obtain ⟨t, ht, hwt⟩ := (mem_getWordsForLanguage db s lang w).mp hmem
  exact ⟨w, ⟨lang, hlang, t, ht, hwt⟩, (Contains_iff _ _).mp hc⟩

theorem Listed_mono (db : profanity.ProfranityDatabase) (s s' : Spec.Tier)
    (h : s.rank ≤ s'.rank) (w : String) (hw : Spec.Listed db s' w) : Spec.Listed db s w := by
  obtain ⟨lang, hlang, t, ht, hmem⟩ := hw
  exact ⟨lang, hlang, t, Nat.le_trans h ht, hmem⟩

theorem lowerExcerpt_idem (c : Char) : lowerExcerpt (lowerExcerpt c) = lowerExcerpt c := by
  unfold lowerExcerpt
  by_cases h : 65 ≤ c.toNat ∧ c.toNat ≤ 90
  · have hc : c = Char.ofNat c.toNat := (Char.ofNat_toNat c).symm
    generalize c.toNat = n at h hc
    subst hc
    obtain ⟨h1, h2⟩ := h
    interval_cases n <;> decide
  · simp [h]

theorem not_substring_of_changed_char (u : CaseTables)
    (hidem : ∀ c, u.ToLower (u.ToLower c) = u.ToLower c) (w : String)
    (hchg : ∃ c ∈ w.data, u.ToLower c ≠ c) (m : String) :
    ¬ Spec.IsSubstring w (strings.ToLower u m) := by
  rintro ⟨a, b, hab⟩
  obtain ⟨c, hc, hne⟩ := hchg
  have hdata : m.data.map u.ToLower = a.data ++ w.data ++ b.data := by
    have := congrArg String.data hab
    simpa [strings.ToLower] using this
  have hmem : c ∈ m.data.map u.ToLower := by
    rw [hdata]
    simp [hc]
  obtain ⟨d, _, hd⟩ := List.mem_map.mp hmem
  apply hne
  rw [← hd]
  exact hidem d

/-! ## Lemmas on UTF-8 and on the byte-string primitives -/

theorem byte_val (n : Nat) : (byte n).val = n % 256 := rfl

theorem DecodeRune_EncodeRune (c : Char) (rest : List Byte) :
    utf8.DecodeRune (utf8.EncodeRune c ++ rest) = (c, (utf8.EncodeRune c).length) := by
  have hv : c.toNat < 0xD800 ∨ (0xDFFF < c.toNat ∧ c.toNat < 0x110000) := c.valid
  have hc : Char.ofNat c.toNat = c := Char.ofNat_toNat c
  unfold utf8.EncodeRune
  generalize c.toNat = n at hv hc ⊢
  by_cases h1 : n ≤ 0x7F
  · have e : n % 256 = n := by omega
    simp only [h1, if_true, List.cons_append, List.nil_append, utf8.DecodeRune, byte_val, e,
      hc, List.length_cons, List.length_nil]
    rw [if_pos (by omega)]
  · by_cases h2 : n ≤ 0x7FF
    · have e0 : (0xC0 + n / 64) % 256 = 0xC0 + n / 64 := by omega
      have e1 : (0x80 + n % 64) % 256 = 0x80 + n % 64 := by omega
      have ev : (0xC0 + n / 64) % 32 * 64 + (0x80 + n % 64) % 64 = n := by omega
      simp only [h1, h2, if_false, if_true, List.cons_append, List.nil_append,
        utf8.DecodeRune, byte_val, e0, e1, utf8.isCont, ev, hc, List.length_cons,
        List.length_nil]
      rw [if_neg (by omega), if_pos (by omega), if_pos (by simp; omega)]
    · by_cases h3 : n ≤ 0xFFFF
      · have e0 : (0xE0 + n / 4096) % 256 = 0xE0 + n / 4096 := by omega
        have e1 : (0x80 + n / 64 % 64) % 256 = 0x80 + n / 64 % 64 := by omega
        have e2 : (0x80 + n % 64) % 256 = 0x80 + n % 64 := by omega
        have ev : (0xE0 + n / 4096) % 16 * 4096 + (0x80 + n / 64 % 64) % 64 * 64
            + (0x80 + n % 64) % 64 = n := by omega
        have hlo : utf8.acceptLo (byte (0xE0 + n / 4096)) ≤ 0x80 + n / 64 % 64 := by
          unfold utf8.acceptLo
          rw [byte_val, e0]
          split_ifs <;> omega
        have hhi : 0x80 + n / 64 % 64 ≤ utf8.acceptHi (byte (0xE0 + n / 4096)) := by
          unfold utf8.acceptHi
          rw [byte_val, e0]
          split_ifs <;> omega
        simp only [h1, h2, h3, if_false, if_true, List.cons_append, List.nil_append,
          utf8.DecodeRune, byte_val, e0, e1, e2, utf8.isCont, ev, hc, List.length_cons,
          List.length_nil]
        rw [if_neg (by omega), if_neg (by omega), if_pos (by omega),
          if_pos ⟨hlo, hhi, by simp; omega⟩]
      · have e0 : (0xF0 + n / 262144) % 256 = 0xF0 + n / 262144 := by omega
        have e1 : (0x80 + n / 4096 % 64) % 256 = 0x80 + n / 4096 % 64 := by omega
        have e2 : (0x80 + n / 64 % 64) % 256 = 0x80 + n / 64 % 64 := by omega
        have e3 : (0x80 + n % 64) % 256 = 0x80 + n % 64 := by omega
        have ev : (0xF0 + n / 262144) % 8 * 262144 + (0x80 + n / 4096 % 64) % 64 * 4096
            + (0x80 + n / 64 % 64) % 64 * 64 + (0x80 + n % 64) % 64 = n := by omega
        have hlo : utf8.acceptLo (byte (0xF0 + n / 262144)) ≤ 0x80 + n / 4096 % 64 := by
          unfold utf8.acceptLo
          rw [byte_val, e0]
          split_ifs <;> omega
        have hhi : 0x80 + n / 4096 % 64 ≤ utf8.acceptHi (byte (0xF0 + n / 262144)) := by
          unfold utf8.acceptHi
          rw [byte_val, e0]
          split_ifs <;> omega
        simp only [h1, h2, h3, if_false, if_true, List.cons_append, List.nil_append,
          utf8.DecodeRune, byte_val, e0, e1, e2, e3, utf8.isCont, ev, hc, List.length_cons,
          List.length_nil]
        rw [if_neg (by omega), if_neg (by omega), if_neg (by omega), if_pos (by omega),
          if_pos ⟨hlo, hhi, by simp; omega, by simp; omega⟩]

theorem EncodeRune_head (c : Char) :
    ∃ b t, utf8.EncodeRune c = b :: t ∧ utf8.isCont b = false := by
  have hv : c.toNat < 0xD800 ∨ (0xDFFF < c.toNat ∧ c.toNat < 0x110000) := c.valid
  unfold utf8.EncodeRune
  generalize c.toNat = n at hv ⊢
  by_cases h1 : n ≤ 0x7F
  · refine ⟨_, _, by rw [if_pos h1], ?_⟩
    simp only [utf8.isCont, byte_val, decide_eq_false_iff_not]
    omega
  · by_cases h2 : n ≤ 0x7FF
    · refine ⟨_, _, by rw [if_neg h1, if_pos h2], ?_⟩
      simp only [utf8.isCont, byte_val, decide_eq_false_iff_not]
      omega
    · by_cases h3 : n ≤ 0xFFFF
      · refine ⟨_, _, by rw [if_neg h1, if_neg h2, if_pos h3], ?_⟩
        simp only [utf8.isCont, byte_val, decide_eq_false_iff_not]
        omega
      · refine ⟨_, _, by rw [if_neg h1, if_neg h2, if_neg h3], ?_⟩
        simp only [utf8.isCont, byte_val, decide_eq_false_iff_not]
        omega

theorem accept_isCont (b0 b1 : Byte) (h : utf8.acceptLo b0 ≤ b1.val ∧ b1.val ≤ utf8.acceptHi b0) :
    utf8.isCont b1 = true := by
  unfold utf8.acceptLo utf8.acceptHi at h
  simp only [utf8.isCont, decide_eq_true_eq]
  split_ifs at h <;> omega

theorem DecodeRune_width_pos (b : Byte) (s : List Byte) :
    1 ≤ (utf8.DecodeRune (b :: s)).2 := by
  simp only [utf8.DecodeRune]
  split_ifs <;> (try split) <;> (try split_ifs) <;> simp

/-- When the bytes after `b :: a` do not start with a continuation byte, decoding at
`b` consumes bytes of `b :: a` only. -/
theorem DecodeRune_width_le (b : Byte) (a rest : List Byte)
    (hrest : ∀ x t, rest = x :: t → utf8.isCont x = false) :
    (utf8.DecodeRune (b :: a ++ rest)).2 ≤ (b :: a).length := by
  simp only [List.cons_append, utf8.DecodeRune, List.length_cons]
  split_ifs with h1 h2 h3 h4
  · simp
  · rcases a with _ | ⟨a1, a⟩
    · rcases rest with _ | ⟨r1, rest⟩
      · simp
      · simp [hrest r1 rest rfl]
    · simp only [List.cons_append]
      split_ifs <;> simp
  · rcases a with _ | ⟨a1, _ | ⟨a2, a⟩⟩
    · rcases rest with _ | ⟨r1, _ | ⟨r2, rest⟩⟩
      · simp
      · simp
      · simp only [List.nil_append]
        split_ifs with h
        · have := accept_isCont b r1 ⟨h.1, h.2.1⟩
          simp [hrest r1 _ rfl] at this
        · simp
    · rcases rest with _ | ⟨r1, rest⟩
      · simp
      · simp only [List.cons_append, List.nil_append]
        split_ifs with h
        · simp [hrest r1 _ rfl] at h
        · simp
    · simp only [List.cons_append]
      split_ifs <;> simp
  · rcases a with _ | ⟨a1, _ | ⟨a2, _ | ⟨a3, a⟩⟩⟩
    · rcases rest with _ | ⟨r1, _ | ⟨r2, _ | ⟨r3, rest⟩⟩⟩
      · simp
      · simp
      · simp
      · simp only [List.nil_append]
        split_ifs with h
        · have := accept_isCont b r1 ⟨h.1, h.2.1⟩
          simp [hrest r1 _ rfl] at this
        · simp
    · rcases rest with _ | ⟨r1, _ | ⟨r2, rest⟩⟩
      · simp
      · simp
      · simp only [List.cons_append, List.nil_append]
        split_ifs with h
        · simp [hrest r1 _ rfl] at h
        · simp
    · rcases rest with _ | ⟨r1, rest⟩
      · simp
      · simp only [List.cons_append, List.nil_append]
        split_ifs with h
        · simp [hrest r1 _ rfl] at h
        · simp
    · simp only [List.cons_append]
      split_ifs <;> simp
  · simp

theorem mapLoop_fuel (f : Char → Char) (fuel1 : Nat) :
    ∀ (fuel2 : Nat) (s : List Byte), s.length ≤ fuel1 → s.length ≤ fuel2 →
      gostring.mapLoop f fuel1 s = gostring.mapLoop f fuel2 s := by
  induction fuel1 with
  | zero =>
    intro fuel2 s h1 _
    have hs : s = [] := List.length_eq_zero.mp (by omega)
    subst hs
    cases fuel2 <;> simp [gostring.mapLoop]
  | succ k ih =>
    intro fuel2 s h1 h2
    cases s with
    | nil => cases fuel2 <;> simp [gostring.mapLoop]
    | cons b t =>
      cases fuel2 with
      | zero => simp at h2
      | succ j =>
        simp only [gostring.mapLoop]
        have hw := DecodeRune_width_pos b t
        have hl : ((b :: t).drop (utf8.DecodeRune (b :: t)).2).length ≤ t.length := by
          simp only [List.length_drop, List.length_cons]
          omega
        simp only [List.length_cons] at h1 h2
        rw [ih j _ (by omega) (by omega)]

theorem Map_nil (f : Char → Char) : gostring.Map f [] = [] := by
  simp [gostring.Map, gostring.mapLoop]

theorem Map_cons (f : Char → Char) (b : Byte) (t : List Byte) :
    gostring.Map f (b :: t) =
      utf8.EncodeRune (f (utf8.DecodeRune (b :: t)).1) ++
        gostring.Map f ((b :: t).drop (utf8.DecodeRune (b :: t)).2) := by
  have hw := DecodeRune_width_pos b t
  have hl : ((b :: t).drop (utf8.DecodeRune (b :: t)).2).length ≤ t.length := by
    simp only [List.length_drop, List.length_cons]
    omega
  simp only [gostring.Map, List.length_cons, gostring.mapLoop]
  rw [mapLoop_fuel f t.length _ _ hl (le_refl _)]

theorem Map_EncodeRune_append (f : Char → Char) (c : Char) (rest : List Byte) :
    gostring.Map f (utf8.EncodeRune c ++ rest) =
      utf8.EncodeRune (f c) ++ gostring.Map f rest := by
  have hd := DecodeRune_EncodeRune c rest
  obtain ⟨b, t, hbt, _⟩ := EncodeRune_head c
  rw [hbt] at hd ⊢
  rw [List.cons_append] at hd ⊢
  rw [Map_cons, hd]
  simp only
  rw [← List.cons_append, List.drop_left]

theorem Map_encode_append (f : Char → Char) (cs : List Char) (rest : List Byte) :
    gostring.Map f (utf8.encode cs ++ rest) =
      utf8.encode (cs.map f) ++ gostring.Map f rest := by
  induction cs with
  | nil => simp [utf8.encode]
  | cons c cs ih =>
    simp only [utf8.encode, List.map_cons, List.append_assoc]
    rw [Map_EncodeRune_append, ih]

/-- Decoding resynchronises: when `rest` does not start with a continuation byte, the
image of `a ++ rest` ends with the image of `rest`. -/
theorem Map_resync (f : Char → Char) (rest : List Byte)
    (hrest : ∀ x t, rest = x :: t → utf8.isCont x = false) :
    ∀ (n : Nat) (a : List Byte), a.length ≤ n →
      ∃ x, gostring.Map f (a ++ rest) = x ++ gostring.Map f rest := by
  intro n
  induction n with
  | zero =>
    intro a ha
    have hs : a = [] := List.length_eq_zero.mp (by omega)
    subst hs
    exact ⟨[], by simp⟩
  | succ k ih =>
    intro a ha
    cases a with
    | nil => exact ⟨[], by simp⟩
    | cons b t =>
      have hw := DecodeRune_width_pos b (t ++ rest)
      have hle := DecodeRune_width_le b t rest hrest
      rw [List.cons_append] at hle ⊢
      rw [Map_cons]
      generalize (utf8.DecodeRune (b :: (t ++ rest))).2 = w at hw hle
      have hd : (b :: (t ++ rest)).drop w = (b :: t).drop w ++ rest := by
        rw [← List.cons_append]
        exact List.drop_append_of_le_length hle
      rw [hd]
      obtain ⟨x, hx⟩ := ih ((b :: t).drop w) (by
        simp only [List.length_drop, List.length_cons] at ha ⊢
        omega)
      rw [hx]
      exact ⟨_, (List.append_assoc _ _ _).symm⟩

theorem bytes_hasPrefixAt_iff (s p : List Byte) :
    gostring.hasPrefixAt s p = true ↔ ∃ t, s = p ++ t := by
  induction p generalizing s with
  | nil => simp [gostring.hasPrefixAt]
  | cons d p ih =>
    cases s with
    | nil => simp [gostring.hasPrefixAt]
    | cons c s =>
      by_cases hcd : c = d
      · subst hcd
        simp [gostring.hasPrefixAt, ih]
      · simp [gostring.hasPrefixAt, hcd]

theorem bytes_Contains_iff (s p : List Byte) :
    gostring.Contains s p = true ↔ ∃ a b, s = a ++ p ++ b := by
  unfold gostring.Contains
  induction s with
  | nil =>
    rw [gostring.containsFrom, bytes_hasPrefixAt_iff]
    constructor
    · rintro ⟨t, ht⟩
      exact ⟨[], t, by simpa using ht⟩
    · rintro ⟨a, b, hab⟩
      have h := congrArg List.length hab
      simp only [List.length_nil, List.length_append] at h
      have ha : a = [] := List.length_eq_zero.mp (by omega)
      subst ha
      exact ⟨b, by simpa using hab⟩
  | cons c s ih =>
    rw [gostring.containsFrom]
    by_cases hp : gostring.hasPrefixAt (c :: s) p = true
    · simp only [hp, if_true, true_iff]
      obtain ⟨t, ht⟩ := (bytes_hasPrefixAt_iff _ _).mp hp
      exact ⟨[], t, by simpa using ht⟩
    · simp only [hp, Bool.false_eq_true, if_false, ih]
      constructor
      · rintro ⟨a, b, hab⟩
        exact ⟨c :: a, b, by simp [hab]⟩
      · rintro ⟨a, b, hab⟩
        cases a with
        | nil =>
          exact absurd ((bytes_hasPrefixAt_iff _ _).mpr ⟨b, by simpa using hab⟩) hp
        | cons x a =>
          simp only [List.cons_append, List.cons.injEq] at hab
          exact ⟨a, b, hab.2⟩

theorem encode_append (a b : List Char) :
    utf8.encode (a ++ b) = utf8.encode a ++ utf8.encode b := by
  induction a with
  | nil => simp [utf8.encode]
  | cons c a ih => simp [utf8.encode, ih]

theorem encode_cons_head (c : Char) (cs : List Char) (b : List Byte) :
    ∀ x t, utf8.encode (c :: cs) ++ b = x :: t → utf8.isCont x = false := by
  intro x t h
  obtain ⟨e, et, he, hcont⟩ := EncodeRune_head c
  simp only [utf8.encode, he, List.cons_append, List.cons.injEq] at h
  rw [← h.1]
  exact hcont

/-- On text, the byte-level `strings.ToLower` is the code-point-wise one. -/
theorem ToLower_bytes (u : CaseTables) (s : String) :
    gostring.ToLower u (utf8.bytes s) = utf8.bytes (strings.ToLower u s) := by
  have h := Map_encode_append u.ToLower s.data []
  simpa [gostring.ToLower, utf8.bytes, strings.ToLower, Map_nil] using h

/-- The image of a byte string that holds the text `t` somewhere holds the image of
`t` at the corresponding place, whatever the bytes around it. -/
theorem Map_around_text (f : Char → Char) (a b : List Byte) (t : List Char) :
    ∃ x y, gostring.Map f (a ++ utf8.encode t ++ b) = x ++ utf8.encode (t.map f) ++ y := by
  cases t with
  | nil => exact ⟨[], gostring.Map f (a ++ b), by simp [utf8.encode]⟩
  | cons c cs =>
    obtain ⟨x, hx⟩ := Map_resync f (utf8.encode (c :: cs) ++ b)
      (encode_cons_head c cs b) a.length a (le_refl _)
    refine ⟨x, gostring.Map f b, ?_⟩
    rw [List.append_assoc, hx, Map_encode_append, List.append_assoc]

theorem encode_prefix_text (w : List Char) :
    ∀ (s : List Char) (y : List Byte), utf8.encode s = utf8.encode w ++ y →
      ∃ b, s = w ++ b := by
  induction w with
  | nil => exact fun s _ _ => ⟨s, rfl⟩
  | cons c w ih =>
    intro s y h
    cases s with
    | nil =>
      obtain ⟨e, et, he, _⟩ := EncodeRune_head c
      simp [utf8.encode, he] at h
    | cons d s =>
      simp only [utf8.encode, List.append_assoc] at h
      have h1 := DecodeRune_EncodeRune d (utf8.encode s)
      have h2 := DecodeRune_EncodeRune c (utf8.encode w ++ y)
      rw [h, h2] at h1
      have hcd : c = d := congrArg Prod.fst h1
      subst hcd
      obtain ⟨b, hb⟩ := ih s y (List.append_cancel_left h)
      exact ⟨b, by simp [hb]⟩

/-- UTF-8 is self-synchronising: a nonempty text whose bytes occur in the bytes of
`s` occurs in `s`. -/
theorem encode_infix_text (c : Char) (w : List Char) (y : List Byte) :
    ∀ (s : List Char) (x : List Byte),
      utf8.encode s = x ++ utf8.encode (c :: w) ++ y → ∃ a b, s = a ++ (c :: w) ++ b := by
  intro s
  induction s with
  | nil =>
    intro x h
    obtain ⟨e, et, he, _⟩ := EncodeRune_head c
    simp [utf8.encode, he] at h
  | cons d s ih =>
    intro x h
    cases x with
    | nil =>
      rw [List.nil_append] at h
      obtain ⟨b, hb⟩ := encode_prefix_text (c :: w) (d :: s) y h
      exact ⟨[], b, by simpa using hb⟩
    | cons x0 x =>
      have h1 := DecodeRune_EncodeRune d (utf8.encode s)
      have hle := DecodeRune_width_le x0 x (utf8.encode (c :: w) ++ y)
        (encode_cons_head c w y)
      have h' : utf8.EncodeRune d ++ utf8.encode s =
          x0 :: x ++ (utf8.encode (c :: w) ++ y) := by
        rw [← List.append_assoc]
        exact h
      rw [← h', h1] at hle
      simp only at hle
      rcases List.append_eq_append_iff.mp h' with ⟨a', ha', hs⟩ | ⟨c', hc', _⟩
      · obtain ⟨a, b, hab⟩ := ih a' (by rw [hs, List.append_assoc])
        exact ⟨d :: a, b, by simp [hab]⟩
      · have hlen := congrArg List.length hc'
        simp only [List.length_append] at hlen
        have hc0 : c' = [] := List.length_eq_zero.mp (by omega)
        subst hc0
        rw [List.append_nil] at hc'
        have hs : utf8.encode s = utf8.encode (c :: w) ++ y := by
          rw [hc'] at h'
          exact List.append_cancel_left h'
        obtain ⟨b, hb⟩ := encode_prefix_text (c :: w) s y hs
        exact ⟨[d], b, by simp [hb]⟩

/-- On text, the byte-wise `strings.Contains` is the code-point-wise one. -/
theorem Contains_bytes (s w : String) :
    gostring.Contains (utf8.bytes s) (utf8.bytes w) = strings.Contains s w := by
  rw [Bool.eq_iff_iff, bytes_Contains_iff]
  unfold strings.Contains utf8.bytes
  rw [containsFrom_iff]
  constructor
  · rintro ⟨x, y, h⟩
    cases hw : w.data with
    | nil => exact ⟨s.data, [], by simp⟩
    | cons c cs =>
      rw [hw] at h
      exact encode_infix_text c cs y s.data x h
  · rintro ⟨a, b, h⟩
    exact ⟨utf8.encode a, utf8.encode b, by rw [h, encode_append, encode_append]⟩

theorem containsAnyWordBytes_utf8 (m : String) (ws : List String) :
    profanity.containsAnyWordBytes (utf8.bytes m) ws = profanity.containsAnyWord m ws := by
  induction ws with
  | nil => rfl
  | cons w ws ih =>
    simp only [profanity.containsAnyWordBytes, profanity.containsAnyWord, Contains_bytes, ih]

/-- The two views of the filter agree on text: classifying the bytes of a text as a
byte string gives the result of classifying the text. -/
theorem ContainsProfatinyBytes_utf8 (u : CaseTables) (f : profanity.Filter) (m : String) :
    f.ContainsProfatinyBytes u (utf8.bytes m) = f.ContainsProfatiny u m := by
  simp only [profanity.Filter.ContainsProfatinyBytes, profanity.Filter.ContainsProfatiny,
    ToLower_bytes, containsAnyWordBytes_utf8]

theorem containsAnyWordBytes_iff (m : List Byte) (ws : List String) :
    profanity.containsAnyWordBytes m ws = true ↔
      ∃ w ∈ ws, gostring.Contains m (utf8.bytes w) = true := by
  induction ws with
  | nil => simp [profanity.containsAnyWordBytes]
  | cons w ws ih =>
    rw [profanity.containsAnyWordBytes]
    by_cases hw : gostring.Contains m (utf8.bytes w) = true
    · simp [hw]
    · simp [hw, ih]

theorem ContainsProfatinyBytes_iff (u : CaseTables) (f : profanity.Filter) (m : List Byte) :
    f.ContainsProfatinyBytes u m = true ↔
      ∃ lang ∈ Spec.languages f.db, ∃ w ∈ f.getWordsForLanguage lang,
        gostring.Contains (gostring.ToLower u m) (utf8.bytes w) = true := by
  simp only [profanity.Filter.ContainsProfatinyBytes, Spec.languages, List.mem_cons,
    List.mem_singleton, List.not_mem_nil, or_false, exists_eq_or_imp, exists_eq_left,
    ← containsAnyWordBytes_iff]
  by_cases h1 : profanity.containsAnyWordBytes (gostring.ToLower u m)
      (f.getWordsForLanguage f.db.Spanish) = true
  · simp [h1]
  · by_cases h2 : profanity.containsAnyWordBytes (gostring.ToLower u m)
        (f.getWordsForLanguage f.db.Catalan) = true
    · simp [h2]
    · simp [h1, h2]

/-! ## The end-to-end scenarios of the specification, evaluated on the model -/

theorem scenario_mild_word_under_mild :
    profanity.Filter.ContainsProfatiny goCase ⟨englishMild "darn", "mild"⟩
      "that darn thing" = true := by
  decide

theorem scenario_mild_word_under_severe :
    profanity.Filter.ContainsProfatiny goCase ⟨englishMild "darn", "severe"⟩
      "that darn thing" = false := by
  decide

theorem scenario_severe_word_under_moderate :
    profanity.Filter.ContainsProfatiny goCase ⟨spanishSevere "palabra", "moderate"⟩
      "una PALABRA aqui" = true := by
  decide

/-! ## The claims -/

/-- C1: for every database, every minimum severity among mild, moderate and severe,
and every message, `ContainsProfatiny` returns true exactly when some word listed
for Spanish, Catalan or English in a tier at or above the minimum is a literal
substring of the lowercased message, and returns false otherwise. -/
theorem C1_ContainsProfatiny_characterisation (u : CaseTables)
    (db : profanity.ProfranityDatabase) (s : Spec.Tier) (m : String) :
    (profanity.Filter.ContainsProfatiny u ⟨db, s.name⟩ m = true ↔
      ∃ lang ∈ Spec.languages db, ∃ t : Spec.Tier, t.atOrAbove s ∧
        ∃ w ∈ t.words lang, Spec.IsSubstring w (strings.ToLower u m)) ∧
    (profanity.Filter.ContainsProfatiny u ⟨db, s.name⟩ m = false ↔
      ¬ ∃ lang ∈ Spec.languages db, ∃ t : Spec.Tier, t.atOrAbove s ∧
        ∃ w ∈ t.words lang, Spec.IsSubstring w (strings.ToLower u m)) := by
  have key : profanity.Filter.ContainsProfatiny u ⟨db, s.name⟩ m = true ↔
      ∃ lang ∈ Spec.languages db, ∃ t : Spec.Tier, t.atOrAbove s ∧
        ∃ w ∈ t.words lang, Spec.IsSubstring w (strings.ToLower u m) := by
    constructor
    · intro h
      obtain ⟨w, ⟨lang, hlang, t, ht, hmem⟩, hsub⟩ :=
        listed_substring_of_ContainsProfatiny u db s m h
      exact ⟨lang, hlang, t, ht, w, hmem, hsub⟩
    · rintro ⟨lang, hlang, t, ht, w, hmem, hsub⟩
      exact ContainsProfatiny_of_listed_substring u db s m w ⟨lang, hlang, t, ht, hmem⟩ hsub
  refine ⟨key, ?_⟩
  rw [← key]
  simp

/-- C2: monotonicity in the threshold. For one database and one message, a match
under minimum severity "severe" is a match under "moderate", and a match under
"moderate" is a match under "mild". -/
theorem C2_threshold_monotone (u : CaseTables) (db : profanity.ProfranityDatabase)
    (m : String) :
    (profanity.Filter.ContainsProfatiny u ⟨db, profanity.Severe⟩ m = true →
      profanity.Filter.ContainsProfatiny u ⟨db, profanity.Moderate⟩ m = true) ∧
    (profanity.Filter.ContainsProfatiny u ⟨db, profanity.Moderate⟩ m = true →
      profanity.Filter.ContainsProfatiny u ⟨db, profanity.Mild⟩ m = true) := by
  constructor
  · intro h
    obtain ⟨w, hw, hsub⟩ := listed_substring_of_ContainsProfatiny u db .severe m h
    exact ContainsProfatiny_of_listed_substring u db .moderate m w
      (Listed_mono db .moderate .severe (by decide) w hw) hsub
  · intro h
    obtain ⟨w, hw, hsub⟩ := listed_substring_of_ContainsProfatiny u db .moderate m h
    exact ContainsProfatiny_of_listed_substring u db .mild m w
      (Listed_mono db .mild .moderate (by decide) w hw) hsub

/-- C2, at a concrete input: the word "palabra" in the severe tier of Spanish is
found in "una PALABRA aqui" under "severe", hence under "moderate" and "mild". -/
theorem C2_threshold_monotone_witness :
    profanity.Filter.ContainsProfatiny goCase ⟨spanishSevere "palabra", profanity.Severe⟩
        "una PALABRA aqui" = true ∧
      profanity.Filter.ContainsProfatiny goCase ⟨spanishSevere "palabra", profanity.Moderate⟩
        "una PALABRA aqui" = true ∧
      profanity.Filter.ContainsProfatiny goCase ⟨spanishSevere "palabra", profanity.Mild⟩
        "una PALABRA aqui" = true :=
  have h := C2_threshold_monotone goCase (spanishSevere "palabra") "una PALABRA aqui"
  have hs : profanity.Filter.ContainsProfatiny goCase
      ⟨spanishSevere "palabra", profanity.Severe⟩ "una PALABRA aqui" = true := by decide
  ⟨hs, h.1 hs, h.2 (h.1 hs)⟩

/-- C3 as stated fails: with the empty word in the mild tier of English and minimum
severity "mild", the empty message is classified as profane, because
`strings.Contains("", "")` is true. -/
theorem C3_empty_message_counterexample :
    profanity.Filter.ContainsProfatiny goCase ⟨englishMild "", "mild"⟩ "" = true ∧
      ¬ ∀ (u : CaseTables) (f : profanity.Filter), f.ContainsProfatiny u "" = false := by
  refine ⟨by decide, fun h => ?_⟩
  have h1 := h goCase ⟨englishMild "", "mild"⟩
  revert h1
  decide

/-- C3, amended: for every database and every minimum severity such that no word
selected by the minimum severity is the empty string, the empty message is not
classified as profane. -/
theorem C3_empty_message_false (u : CaseTables) (f : profanity.Filter)
    (hne : ∀ lang ∈ Spec.languages f.db, ∀ w ∈ f.getWordsForLanguage lang, w ≠ "") :
    f.ContainsProfatiny u "" = false := by
  rw [← Bool.not_eq_true, ContainsProfatiny_iff]
  rintro ⟨lang, hlang, w, hw, hc⟩
  apply hne lang hlang w hw
  rw [ToLower_empty, Contains_iff] at hc
  obtain ⟨a, b, hab⟩ := hc
  have hlen : ([] : List Char).length = (a ++ w ++ b).data.length :=
    congrArg (fun x : String => x.data.length) hab
  simp only [String.data_append, List.length_append, List.length_nil] at hlen
  apply String.ext
  apply List.length_eq_zero.mp
  omega

/-- C3 amended, at a concrete input: the database with only "darn" (mild, English)
has no empty word, and the empty message is clean under "mild". -/
theorem C3_empty_message_false_witness :
    (∀ lang ∈ Spec.languages (englishMild "darn"),
      ∀ w ∈ profanity.Filter.getWordsForLanguage ⟨englishMild "darn", "mild"⟩ lang, w ≠ "") ∧
    profanity.Filter.ContainsProfatiny goCase ⟨englishMild "darn", "mild"⟩ "" = false :=
  have hne : ∀ lang ∈ Spec.languages (englishMild "darn"),
      ∀ w ∈ profanity.Filter.getWordsForLanguage ⟨englishMild "darn", "mild"⟩ lang,
        w ≠ "" := by decide
  ⟨hne, C3_empty_message_false goCase ⟨englishMild "darn", "mild"⟩ hne⟩

/-- C6: a minimum severity that is not exactly "mild", "moderate" or "severe"
selects no word of any language, and the filter then classifies every message of
every database as clean. -/
theorem C6_unrecognized_threshold (sev : profanity.Severity)
    (h1 : sev ≠ "mild") (h2 : sev ≠ "moderate") (h3 : sev ≠ "severe") :
    (∀ (db : profanity.ProfranityDatabase) (lang : profanity.LanguageProfanity),
      profanity.Filter.getWordsForLanguage ⟨db, sev⟩ lang = []) ∧
    (∀ (u : CaseTables) (db : profanity.ProfranityDatabase) (m : String),
      profanity.Filter.ContainsProfatiny u ⟨db, sev⟩ m = false) := by
  refine ⟨fun db lang => getWordsForLanguage_unrecognized db sev h1 h2 h3 lang, ?_⟩
  intro u db m
  rw [← Bool.not_eq_true, ContainsProfatiny_iff]
  rintro ⟨lang, _, w, hw, _⟩
  rw [getWordsForLanguage_unrecognized db sev h1 h2 h3 lang] at hw
  exact absurd hw (List.not_mem_nil w)

/-- C6, at the concrete threshold "Mild" (wrong case): no word is selected and
"that darn thing" is clean although "darn" is in the database. -/
theorem C6_unrecognized_threshold_witness :
    profanity.Filter.getWordsForLanguage ⟨englishMild "darn", "Mild"⟩
        (englishMild "darn").English = [] ∧
      profanity.Filter.ContainsProfatiny goCase ⟨englishMild "darn", "Mild"⟩
        "that darn thing" = false :=
  have h := C6_unrecognized_threshold "Mild" (by decide) (by decide) (by decide)
  ⟨h.1 (englishMild "darn") (englishMild "darn").English,
    h.2 goCase (englishMild "darn") "that darn thing"⟩

/-- C10 as stated fails on Go strings that are not valid UTF-8. With the dictionary
word U+FFFD (mild, English) and minimum severity "mild", the one-byte message
`m = "\xa9"` is classified as profane, because lowercasing turns the invalid byte
into U+FFFD; with `a = "\xc3"` before it and `b = ""` after it the message is the
valid text "é", which lowercasing leaves alone, and it is classified as clean. -/
theorem C10_extension_counterexample :
    gostring.ToLower goCase [0xA9] = utf8.bytes "\uFFFD" ∧
      profanity.Filter.ContainsProfatinyBytes goCase ⟨englishMild "\uFFFD", "mild"⟩
        [0xA9] = true ∧
      ([0xC3] ++ [0xA9] ++ [] : List Byte) = utf8.bytes "é" ∧
      profanity.Filter.ContainsProfatinyBytes goCase ⟨englishMild "\uFFFD", "mild"⟩
        ([0xC3] ++ [0xA9] ++ []) = false := by
  decide

/-- C10, amended: extending a message that is valid UTF-8 never clears it. For every
database, every minimum severity, every valid UTF-8 string `m` and all byte strings
`a` and `b`, valid UTF-8 or not, if `m` is classified as profane then so is
`a ++ m ++ b`. -/
theorem C10_extension_keeps_match_utf8 (u : CaseTables) (f : profanity.Filter)
    (a m b : List Byte) (hm : Spec.ValidUTF8 m)
    (h : f.ContainsProfatinyBytes u m = true) :
    f.ContainsProfatinyBytes u (a ++ m ++ b) = true := by
  obtain ⟨t, rfl⟩ := hm
  rw [ContainsProfatinyBytes_iff] at h ⊢
  obtain ⟨lang, hlang, w, hw, hc⟩ := h
  refine ⟨lang, hlang, w, hw, ?_⟩
  rw [bytes_Contains_iff] at hc ⊢
  obtain ⟨p, q, hpq⟩ := hc
  obtain ⟨x, y, hxy⟩ := Map_around_text u.ToLower a b t.data
  have hmid : utf8.encode (t.data.map u.ToLower) = p ++ utf8.bytes w ++ q := by
    have h0 := ToLower_bytes u t
    rw [hpq] at h0
    exact h0.symm
  refine ⟨x ++ p, q ++ y, ?_⟩
  unfold gostring.ToLower utf8.bytes at *
  rw [hxy, hmid]
  simp only [List.append_assoc]

/-- C10 amended, at a concrete input: "DARN" is profane, and so is "DARN" after the
stray byte 0xC3 and before " thing". -/
theorem C10_extension_keeps_match_utf8_witness :
    Spec.ValidUTF8 (utf8.bytes "DARN") ∧
      profanity.Filter.ContainsProfatinyBytes goCase ⟨englishMild "darn", "mild"⟩
        (utf8.bytes "DARN") = true ∧
      profanity.Filter.ContainsProfatinyBytes goCase ⟨englishMild "darn", "mild"⟩
        ([0xC3] ++ utf8.bytes "DARN" ++ utf8.bytes " thing") = true :=
  ⟨⟨"DARN", rfl⟩, by decide,
    C10_extension_keeps_match_utf8 goCase ⟨englishMild "darn", "mild"⟩ [0xC3]
      (utf8.bytes "DARN") (utf8.bytes " thing") ⟨"DARN", rfl⟩ (by decide)⟩

/-- C4 as stated fails: for the dictionary word "ı" (U+0131, dotless i), whose
upper-cased form is "I", the word itself is classified as profane and its
upper-cased form, lowercased to "i", is not. -/
theorem C4_case_insensitivity_counterexample :
    "ı" ∈ (englishMild "ı").English.Mild ∧
      strings.ToUpper goCase "ı" = "I" ∧
      profanity.Filter.ContainsProfatiny goCase ⟨englishMild "ı", "mild"⟩ "ı" = true ∧
      profanity.Filter.ContainsProfatiny goCase ⟨englishMild "ı", "mild"⟩
        (strings.ToUpper goCase "ı") = false := by
  decide

/-- C4, amended: for every database, every minimum severity and every word `w`
whose characters `c` all satisfy `ToLower (ToUpper c) = ToLower c` (every word of
ASCII characters is one), the upper-cased form of `w` is classified as `w` is. -/
theorem C4_case_insensitivity (u : CaseTables) (f : profanity.Filter) (w : String)
    (hround : ∀ c ∈ w.data, u.ToLower (u.ToUpper c) = u.ToLower c) :
    f.ContainsProfatiny u (strings.ToUpper u w) = f.ContainsProfatiny u w := by
  have hlow : strings.ToLower u (strings.ToUpper u w) = strings.ToLower u w := by
    apply String.ext
    simp only [strings.ToLower, strings.ToUpper, List.map_map]
    exact List.map_congr_left (fun c hc => hround c hc)
  simp only [profanity.Filter.ContainsProfatiny, hlow]

/-- C4 amended, at a concrete input: the dictionary word "darn" and "DARN" are both
classified as profane. -/
theorem C4_case_insensitivity_witness :
    (∀ c ∈ ("darn" : String).data, goCase.ToLower (goCase.ToUpper c) = goCase.ToLower c) ∧
      strings.ToUpper goCase "darn" = "DARN" ∧
      profanity.Filter.ContainsProfatiny goCase ⟨englishMild "darn", "mild"⟩
        (strings.ToUpper goCase "darn") =
      profanity.Filter.ContainsProfatiny goCase ⟨englishMild "darn", "mild"⟩ "darn" :=
  ⟨by decide, by decide,
    C4_case_insensitivity goCase ⟨englishMild "darn", "mild"⟩ "darn" (by decide)⟩

/-- C5 as stated fails: the word "Darn" is listed in the mild tier of English, the
minimum severity is "mild", and the message "that Darn thing", which embeds the
word, is not classified as profane. -/
theorem C5_substring_policy_counterexample :
    Spec.Listed (englishMild "Darn") .mild "Darn" ∧
      profanity.Filter.ContainsProfatiny goCase ⟨englishMild "Darn", "mild"⟩
        ("that " ++ "Darn" ++ " thing") = false :=
  ⟨⟨(englishMild "Darn").English, by simp [Spec.languages], .mild, by decide,
      by simp [Spec.Tier.words, englishMild]⟩,
    by decide⟩

/-- C5, amended: for every database, every minimum severity among mild, moderate
and severe, and every word `w` listed for some language in a tier at or above the
minimum that the lowercase transform leaves unchanged, every message
`pre ++ w ++ suf` is classified as profane. -/
theorem C5_substring_policy (u : CaseTables) (db : profanity.ProfranityDatabase)
    (s : Spec.Tier) (w pre suf : String) (hw : Spec.Listed db s w)
    (hlow : strings.ToLower u w = w) :
    profanity.Filter.ContainsProfatiny u ⟨db, s.name⟩ (pre ++ w ++ suf) = true := by
  apply ContainsProfatiny_of_listed_substring u db s _ w hw
  rw [ToLower_append, ToLower_append, hlow]
  exact ⟨_, _, rfl⟩

/-- C5 amended, at concrete inputs: "ass" (mild, English) inside "assassin", and
"darn" (mild, English) inside "that darn thing". -/
theorem C5_substring_policy_witness :
    Spec.Listed (englishMild "ass") .mild "ass" ∧
      strings.ToLower goCase "ass" = "ass" ∧
      profanity.Filter.ContainsProfatiny goCase ⟨englishMild "ass", "mild"⟩
        ("ass" ++ "ass" ++ "in") = true ∧
      profanity.Filter.ContainsProfatiny goCase ⟨englishMild "darn", "mild"⟩
        ("that " ++ "darn" ++ " thing") = true :=
  have hl : Spec.Listed (englishMild "ass") .mild "ass" :=
    ⟨(englishMild "ass").English, by simp [Spec.languages], .mild, by decide,
      by simp [Spec.Tier.words, englishMild]⟩
  have hd : Spec.Listed (englishMild "darn") .mild "darn" :=
    ⟨(englishMild "darn").English, by simp [Spec.languages], .mild, by decide,
      by simp [Spec.Tier.words, englishMild]⟩
  ⟨hl, by decide,
    C5_substring_policy goCase (englishMild "ass") .mild "ass" "ass" "in" hl (by decide),
    C5_substring_policy goCase (englishMild "darn") .mild "darn" "that " " thing" hd
      (by decide)⟩

/-- C9: dictionary words are not case-normalized. With a lowercase transform that
fixes its own output, a word containing a character the transform changes is a
substring of no lowercased message; and a filter all of whose selected words are
such words classifies every message as clean. -/
theorem C9_dictionary_not_normalized (u : CaseTables)
    (hidem : ∀ c, u.ToLower (u.ToLower c) = u.ToLower c) :
    (∀ w : String, (∃ c ∈ w.data, u.ToLower c ≠ c) →
      ∀ m : String, ¬ Spec.IsSubstring w (strings.ToLower u m) ∧
        strings.Contains (strings.ToLower u m) w = false) ∧
    (∀ f : profanity.Filter,
      (∀ lang ∈ Spec.languages f.db, ∀ w ∈ f.getWordsForLanguage lang,
        ∃ c ∈ w.data, u.ToLower c ≠ c) →
      ∀ m : String, f.ContainsProfatiny u m = false) := by
  constructor
  · intro w hchg m
    have hn := not_substring_of_changed_char u hidem w hchg m
    refine ⟨hn, ?_⟩
    rw [← Bool.not_eq_true, Contains_iff]
    exact hn
  · intro f hall m
    rw [← Bool.not_eq_true, ContainsProfatiny_iff]
    rintro ⟨lang, hlang, w, hw, hc⟩
    exact not_substring_of_changed_char u hidem w (hall lang hlang w hw) m
      ((Contains_iff _ _).mp hc)

/-- C9, at a concrete input: with "Darn" as the only word, the message "Darn"
itself is classified as clean. -/
theorem C9_dictionary_not_normalized_witness :
    (∀ c, goCase.ToLower (goCase.ToLower c) = goCase.ToLower c) ∧
      (∃ c ∈ ("Darn" : String).data, goCase.ToLower c ≠ c) ∧
      strings.Contains (strings.ToLower goCase "Darn") "Darn" = false ∧
      profanity.Filter.ContainsProfatiny goCase ⟨englishMild "Darn", "mild"⟩ "Darn" = false :=
  have h := C9_dictionary_not_normalized goCase lowerExcerpt_idem
  have hD : ∃ c ∈ ("Darn" : String).data, goCase.ToLower c ≠ c :=
    ⟨'D', by decide, by decide⟩
  ⟨lowerExcerpt_idem, hD, (h.1 "Darn" hD "Darn").2,
    h.2 ⟨englishMild "Darn", "mild"⟩ (by
      have hall : ∀ lang ∈ Spec.languages (englishMild "Darn"),
          ∀ w ∈ profanity.Filter.getWordsForLanguage ⟨englishMild "Darn", "mild"⟩ lang,
            w = "Darn" := by decide
      intro lang hlang w hw
      rw [hall lang hlang w hw]
      exact hD) "Darn"⟩

/-- C7: `NewFilter` returns an error exactly when reading the file fails or the
decoding fails; whenever it returns an error the returned filter is nil; and when
both steps succeed it returns the filter made of the decoded database and the
given minimum severity, and no error. -/
theorem C7_NewFilter_result (readFile : String → Except Error (List UInt8))
    (unmarshal : List UInt8 → profanity.ProfranityDatabase →
      profanity.ProfranityDatabase × Option Error)
    (databasePath : String) (minSeverity : profanity.Severity) :
    ((profanity.NewFilter readFile unmarshal databasePath minSeverity).2 ≠ none ↔
      (∃ e, readFile databasePath = .error e) ∨
      (∃ data, readFile databasePath = .ok data ∧
        (unmarshal data profanity.ProfranityDatabase.zero).2 ≠ none)) ∧
    ((profanity.NewFilter readFile unmarshal databasePath minSeverity).2 ≠ none →
      (profanity.NewFilter readFile unmarshal databasePath minSeverity).1 = none) ∧
    (∀ data, readFile databasePath = .ok data →
      (unmarshal data profanity.ProfranityDatabase.zero).2 = none →
      profanity.NewFilter readFile unmarshal databasePath minSeverity =
        (some ⟨(unmarshal data profanity.ProfranityDatabase.zero).1, minSeverity⟩, none)) := by
  unfold profanity.NewFilter
  cases hr : readFile databasePath with
  | error e => simp
  | ok data =>
    rcases hu : unmarshal data profanity.ProfranityDatabase.zero with ⟨db, _ | err⟩
    · simp [hu]
    · simp [hu]

/-- C7, at concrete inputs: the file "missing.json" cannot be read, "bad.json"
reads but does not decode (the decoder leaves a half-filled database behind), and
"good.json" decodes. -/
theorem C7_NewFilter_result_witness :
    profanity.NewFilter
        (fun p => if p = "missing.json" then .error ⟨"no such file"⟩ else .ok [])
        (fun _ db => (db, none)) "missing.json" "Mild" = (none, some ⟨"no such file"⟩) ∧
      profanity.NewFilter (fun _ => .ok [123])
        (fun _ _ => (englishMild "darn", some ⟨"unexpected end of JSON input"⟩))
        "bad.json" "mild" = (none, some ⟨"unexpected end of JSON input"⟩) ∧
      profanity.NewFilter (fun _ => .ok [123, 125])
        (fun _ _ => (englishMild "darn", none)) "good.json" "Mild" =
        (some ⟨englishMild "darn", "Mild"⟩, none) :=
  ⟨by decide, by decide,
    (C7_NewFilter_result (fun _ => .ok [123, 125]) (fun _ _ => (englishMild "darn", none))
      "good.json" "Mild").2.2 [123, 125] rfl rfl⟩

/-- C8: after a successful read and decode, `LoadConfig` returns the decoded
configuration with an empty `MinSeverity` replaced by "mild", an empty
`ProfanityDatabase` replaced by "data/profanity.json" and a zero `PollingInterval`
replaced by 5; every other field value, and the API key and chat id always, are
returned as decoded. -/
theorem C8_LoadConfig_defaults (readFile : String → Except Error (List UInt8))
    (unmarshal : List UInt8 → config.Config → config.Config × Option Error)
    (path : String) (data : List UInt8) (c : config.Config)
    (hread : readFile path = .ok data)
    (hdec : unmarshal data config.Config.zero = (c, none)) :
    config.LoadConfig readFile unmarshal path =
      (some
        { YouTubeAPIKey := c.YouTubeAPIKey
          LiveChatId := c.LiveChatId
          ProfanityDatabase :=
            if c.ProfanityDatabase = "" then "data/profanity.json" else c.ProfanityDatabase
          MinSeverity := if c.MinSeverity = "" then "mild" else c.MinSeverity
          PollingInterval := if c.PollingInterval = 0 then 5 else c.PollingInterval },
        none) := by
  unfold config.LoadConfig
  simp only [hread, hdec]
  by_cases h1 : c.PollingInterval = 0 <;> by_cases h2 : c.MinSeverity = "" <;>
    by_cases h3 : c.ProfanityDatabase = "" <;> simp [h1, h2, h3]

/-- C8, at concrete inputs: a configuration file giving only the API key and the
chat id gets the three defaults, and one giving every field is returned as is. -/
theorem C8_LoadConfig_defaults_witness :
    config.LoadConfig (fun _ => .ok [123, 125])
        (fun _ c => ({ c with YouTubeAPIKey := "key", LiveChatId := "chat" }, none))
        "config.json" =
      (some ⟨"key", "chat", "data/profanity.json", "mild", 5⟩, none) ∧
    config.LoadConfig (fun _ => .ok [123, 125])
        (fun _ _ => (⟨"key", "chat", "words.json", "severe", 30⟩, none)) "config.json" =
      (some ⟨"key", "chat", "words.json", "severe", 30⟩, none) :=
  ⟨C8_LoadConfig_defaults (fun _ => .ok [123, 125])
      (fun _ c => ({ c with YouTubeAPIKey := "key", LiveChatId := "chat" }, none))
      "config.json" [123, 125] ⟨"key", "chat", "", "", 0⟩ rfl rfl,
    C8_LoadConfig_defaults (fun _ => .ok [123, 125])
      (fun _ _ => (⟨"key", "chat", "words.json", "severe", 30⟩, none))
      "config.json" [123, 125] ⟨"key", "chat", "words.json", "severe", 30⟩ rfl rfl⟩

end MapacheBot
